import Mathlib

/-!
Verification development for the hierarchical market-clearing code:
the merit-order matcher `clear_market` of
`mas4te/example_data/battery_market_demo.py` and the intermediate-tier
bidder/role of `assume/markets/clearing_algorithms/intermediate.py`.

Prices and volumes (Python floats in the source) are embedded as `Int`:
the algorithms use only comparisons, `min`/`max`, negation, addition and
subtraction, all of which the embedding performs exactly.
-/

namespace BatteryMarketDemo

/-- One order of the demo order book: a dict with keys `node`, `price`,
`volume` (plus the product window, which `clear_market` never reads).
Sign of `volume` encodes direction: positive = supply, negative = demand. -/
structure Order where
  node : String
  price : Int
  volume : Int
deriving DecidableEq

/-- One entry appended to `matched_orders` inside the matching walk. -/
structure MatchEntry where
  seller : String
  buyer : String
  volume : Int
  price : Int
deriving DecidableEq

/-- The observable outcome of one run of `ClearingMarketOperator.clear_market`:
the returned dict (its clearing price and matched orders) together with the final state of
the (mutated-in-place) supply and demand order lists. -/
structure ClearOut where
  clearing_price : Option Int
  matched_orders : List MatchEntry
  finalSupply : List Order
  finalDemand : List Order
deriving DecidableEq

/-- `sorted(..., key=lambda x: x["price"])`: Python's `sorted` is stable;
insertion sort with this relation is the stable ascending-by-price sort. -/
def sortSupply (l : List Order) : List Order :=
  l.insertionSort (fun a b => a.price ≤ b.price)

/-- `sorted(..., key=lambda x: -x["price"])`: stable descending-by-price sort. -/
def sortDemand (l : List Order) : List Order :=
  l.insertionSort (fun a b => b.price ≤ a.price)

/-- The `while supply_cursor < len(supply) and demand_cursor < len(demand)`
walk of `clear_market` (lines 97-119).  Cursor advancement is modelled by
consuming list heads; an order the cursor moved past is emitted into the
final list with its mutated volume.  In the source the two cursor checks
`s["volume"] <= 0` and `d["volume"] >= 0` are independent; since
`traded = min(supply_vol, demand_vol)`, at least one of the two holds after
every trade, so the third branch below (supply head not exhausted) always
has the demand head exhausted, exactly as in the source. -/
def matchLoop : List Order → List Order → ClearOut
  | [], ds => ⟨none, [], [], ds⟩
  | s :: ss, [] => ⟨none, [], s :: ss, []⟩
  | s :: ss, d :: ds =>
    -- traded   = min(supply_vol, demand_vol) = min s.volume (-d.volume)
    -- price    = max(s.price, d.price), also the running clearing price
    -- s mutated to volume s.volume - traded, d to volume d.volume + traded
    if s.price ≤ d.price then
      if s.volume - min s.volume (-d.volume) ≤ 0 then
        if 0 ≤ d.volume + min s.volume (-d.volume) then
          ⟨some ((matchLoop ss ds).clearing_price.getD (max s.price d.price)),
           ⟨s.node, d.node, min s.volume (-d.volume), max s.price d.price⟩ ::
             (matchLoop ss ds).matched_orders,
           { s with volume := s.volume - min s.volume (-d.volume) } ::
             (matchLoop ss ds).finalSupply,
           { d with volume := d.volume + min s.volume (-d.volume) } ::
             (matchLoop ss ds).finalDemand⟩
        else
          ⟨some ((matchLoop ss ({ d with volume := d.volume + min s.volume (-d.volume) } ::
              ds)).clearing_price.getD (max s.price d.price)),
           ⟨s.node, d.node, min s.volume (-d.volume), max s.price d.price⟩ ::
             (matchLoop ss ({ d with volume := d.volume + min s.volume (-d.volume) } ::
               ds)).matched_orders,
           { s with volume := s.volume - min s.volume (-d.volume) } ::
             (matchLoop ss ({ d with volume := d.volume + min s.volume (-d.volume) } ::
               ds)).finalSupply,
           (matchLoop ss ({ d with volume := d.volume + min s.volume (-d.volume) } ::
             ds)).finalDemand⟩
      else
        ⟨some ((matchLoop ({ s with volume := s.volume - min s.volume (-d.volume) } :: ss)
            ds).clearing_price.getD (max s.price d.price)),
         ⟨s.node, d.node, min s.volume (-d.volume), max s.price d.price⟩ ::
           (matchLoop ({ s with volume := s.volume - min s.volume (-d.volume) } :: ss)
             ds).matched_orders,
         (matchLoop ({ s with volume := s.volume - min s.volume (-d.volume) } :: ss)
           ds).finalSupply,
         { d with volume := d.volume + min s.volume (-d.volume) } ::
           (matchLoop ({ s with volume := s.volume - min s.volume (-d.volume) } :: ss)
             ds).finalDemand⟩
    else ⟨none, [], s :: ss, d :: ds⟩
termination_by ss ds => ss.length + ds.length
decreasing_by all_goals simp_arith

/-- Lines 88-89: the supply side, filtered by `volume > 0` and stably
sorted ascending by price. -/
def supplySide (received_orderbooks : List (List Order)) : List Order :=
  sortSupply ((received_orderbooks.flatten).filter (fun o => decide (0 < o.volume)))

/-- Lines 90-91: the demand side, filtered by `volume < 0` and stably
sorted descending by price. -/
def demandSide (received_orderbooks : List (List Order)) : List Order :=
  sortDemand ((received_orderbooks.flatten).filter (fun o => decide (o.volume < 0)))

/-- `ClearingMarketOperator.clear_market` (lines 83-124): pool the received
orderbooks, split and sort by sign and price, and run the two-cursor
merit-order walk. -/
def clear_market (received_orderbooks : List (List Order)) : ClearOut :=
  matchLoop (supplySide received_orderbooks) (demandSide received_orderbooks)

/-- Sum of the signed volumes of a list of orders. -/
def sumVol (l : List Order) : Int := (l.map (fun o => o.volume)).sum

/-- Per-order accepted volumes: an order's accepted volume is its submitted
volume minus the volume left on it after the walk (the source mutates
`volume` in place, so "accepted" is original minus final). -/
def acceptedVolumes (orig fin : List Order) : List Int :=
  List.zipWith (fun o f => o.volume - f.volume) orig fin

/-- Minimum of a list of prices, `none` on the empty list. -/
def minPrice : List Int → Option Int
  | [] => none
  | x :: xs => match minPrice xs with
    | none => some x
    | some m => some (min x m)

/-- Maximum of a list of prices, `none` on the empty list. -/
def maxPrice : List Int → Option Int
  | [] => none
  | x :: xs => match maxPrice xs with
    | none => some x
    | some m => some (max x m)

/-- Prices of the supply orders that got non-zero matched volume in the run
(final volume differs from submitted volume). -/
def acceptedSupplyPrices (obs : List (List Order)) : List Int :=
  ((supplySide obs).zip (clear_market obs).finalSupply).filterMap
    (fun p => if p.2.volume = p.1.volume then none else some p.1.price)

/-- Prices of the demand orders that got non-zero matched volume in the run. -/
def acceptedDemandPrices (obs : List (List Order)) : List Int :=
  ((demandSide obs).zip (clear_market obs).finalDemand).filterMap
    (fun p => if p.2.volume = p.1.volume then none else some p.1.price)

/-- The literal fixture of the spec's matching-walk scenario:
supply `[(price 10, vol 50), (price 30, vol 50)]`,
demand `[(price 40, vol 60), (price 5, vol 40)]`, in one orderbook. -/
def fixtureBooks : List (List Order) :=
  [[⟨"s10", 10, 50⟩, ⟨"s30", 30, 50⟩, ⟨"d40", 40, -60⟩, ⟨"d5", 5, -40⟩]]

/-- An order set with no price-compatible supply/demand pair: the only
supply order asks 50 while the only demand order bids 20. -/
def noClearBooks : List (List Order) :=
  [[⟨"sHigh", 50, 10⟩, ⟨"dLow", 20, -10⟩]]

/-- An order with zero volume. -/
def zeroOrder : Order := ⟨"z", 10, 0⟩

/-- An order set containing only the zero-volume order. -/
def zeroBooks : List (List Order) := [[zeroOrder]]

end BatteryMarketDemo

namespace Intermediate

/-- A product window key, the triple `("start_time", "end_time", "only_hours")`
read by `itemgetter` in `formulate_bids`.  Only equality of keys matters to
the code, so each component is embedded as an integer stand-in. -/
def PKey : Type := Int × Int × Int
deriving DecidableEq

/-- One order as handled by `intermediate.py`: the product window fields,
price and signed volume, and the `accepted_volume` / `accepted_price`
annotations, which a dict may carry or not (hence `Option`). -/
structure XOrder where
  start_time : Int
  end_time : Int
  only_hours : Int
  price : Int
  volume : Int
  accepted_volume : Option Int
  accepted_price : Option Int
deriving DecidableEq

/-- `market_getter = itemgetter("start_time", "end_time", "only_hours")`. -/
def productKey (o : XOrder) : PKey := (o.start_time, o.end_time, o.only_hours)

/-- `itertools.groupby(rejected, market_getter)`: split a list into maximal
consecutive runs of orders sharing a product key. -/
def groupRuns : List XOrder → List (PKey × List XOrder)
  | [] => []
  | o :: rest =>
    (productKey o, o :: rest.takeWhile (fun x => decide (productKey x = productKey o))) ::
      groupRuns (rest.dropWhile (fun x => decide (productKey x = productKey o)))
termination_by l => l.length
decreasing_by
  simp only [List.length_cons]
  exact Nat.lt_succ_of_le ((List.dropWhile_sublist _).length_le)

/-- The `for product, product_orders in groupby(...)` loop of
`formulate_bids` (lines 68-71): extend the rejected orderbook with every
run whose product key is among the requested products, in iteration order. -/
def rejectedForProducts (products : List PKey) (rejected : List XOrder) : List XOrder :=
  (((groupRuns rejected).filter (fun g => decide (g.1 ∈ products))).map
    (fun g => g.2)).flatten

/-- Lines 75-81 of `formulate_bids`: for an accepted order of the parent
clearing, `remaining = order["volume"] - order["accepted_volume"]`; when
`abs(remaining) > 1` a copy of the order with `volume` set to the residual
is re-submitted (the source reads `accepted_volume` unconditionally; an
order lacking the key would raise, rendered here by `getD 0` — the results
about this code quantify only over orders carrying the annotation). -/
def residualCounter (o : XOrder) : Option XOrder :=
  let remaining := o.volume - (o.accepted_volume.getD 0)
  if 1 < |remaining| then some { o with volume := remaining } else none

/-- A role registered on the agent context: either a
`PayAsClearIntermediateRole`, abstracted by its `clear` function (the body
of `clear` lives in `simple.py`, outside the visible sources — the claims
about `formulate_bids` quantify over its output), or any other role. -/
inductive SimRole where
  | intermediate (clearFn : List XOrder → List PKey → List XOrder × List XOrder)
  | other

/-- Whether a role is a `PayAsClearIntermediateRole` (`isinstance` check). -/
def SimRole.isIntermediate : SimRole → Bool
  | .intermediate _ => true
  | .other => false

/-- The `for role in self.context._role_handler.roles` scan of
`formulate_bids`: the first intermediate role is used, then `break`. -/
def findIntermediate : List SimRole → Option (List XOrder → List PKey → List XOrder × List XOrder)
  | [] => none
  | .intermediate f :: _ => some f
  | .other :: rs => findIntermediate rs

/-- The failure mode of `formulate_bids`: when no intermediate role is
registered, the name `accepted` is never bound and the
`for order in accepted` loop raises an unbound-local name error. -/
inductive FormError where
  | unboundLocalAccepted
deriving DecidableEq

/-- `PayAsClearIntermediateBidder.formulate_bids` (lines 51-84): find the
intermediate role, run its `clear` on the pooled orders, keep the rejected
orders of the requested products, append the significant residuals of the
accepted orders (note: the residual loop is not restricted to the requested
products), and return the result as the orderbook to bid upward.  With no
intermediate role registered, `accepted` is unbound and the call fails. -/
def formulate_bids (roles : List SimRole) (all_orders : List XOrder)
    (products : List PKey) : Except FormError (List XOrder) :=
  match findIntermediate roles with
  | none => .error .unboundLocalAccepted
  | some clearFn =>
    let accepted := (clearFn all_orders products).1
    let rejected := (clearFn all_orders products).2
    .ok (rejectedForProducts products rejected ++ accepted.filterMap residualCounter)

/-- Lines 89-92 of `handle_market_feedback`, for one accepted order of the
upper market: set `volume` to the negated `accepted_volume`, then pop the
`accepted_volume` and `accepted_price` keys.  Reading a missing
`accepted_volume` is the failure case, rendered as `none`. -/
def counter_order (o : XOrder) : Option XOrder :=
  (o.accepted_volume).map (fun av =>
    { o with volume := -av, accepted_volume := none, accepted_price := none })

/-- Transform a list of orders one by one, failing when any single
transformation fails. -/
def mapOption (f : XOrder → Option XOrder) : List XOrder → Option (List XOrder)
  | [] => some []
  | x :: xs =>
    match f x, mapOption f xs with
    | some y, some ys => some (y :: ys)
    | _, _ => none

/-- `PayAsClearIntermediateBidder.handle_market_feedback` (lines 86-94):
each accepted order of the upper market is turned into a counter-order and
appended to the lower market's pooled order list `all_orders`. -/
def handle_market_feedback (accepted_orders all_orders : List XOrder) :
    Option (List XOrder) :=
  (mapOption counter_order accepted_orders).map (fun cs => all_orders ++ cs)

/-- The possible outcomes of one invocation of
`PayAsClearIntermediateRole.clear_market` seen from the driver: still
suspended on the upper market's future, or proceeding to the parent
clearing.  The spec additionally names an `UpstreamTimeout` outcome; the
constructor is provided so the spec's claim can be stated, but the code
never produces it. -/
inductive RoundOutcome where
  | blocked
  | cleared
  | upstreamTimeout
deriving DecidableEq

/-- `PayAsClearIntermediateRole.clear_market` (lines 33-39):
`await self.context.data["wait_events"]["upper"]` with no deadline of any
kind (no `asyncio.wait_for`, no timeout argument), then delegate to the
parent clearing.  `upperSet` is whether the upper market's future has been
resolved; `elapsed` is the number of round-ticks the tier has already
waited, which the code does not consult; `pending` is the tier's pooled
order list, which the code leaves untouched while waiting. -/
def intermediate_clear_market (upperSet : Bool) (elapsed : Nat)
    (pending : List XOrder) : RoundOutcome × List XOrder :=
  if upperSet then (.cleared, pending) else (.blocked, pending)

/-- Sum of the absolute volumes of a list of orders. -/
def sumAbsVol (l : List XOrder) : Int := (l.map (fun o => |o.volume|)).sum

/-- Modelled from the spec's words (for comparison with the code, which is
in `formulate_bids`): "the total |volume| of counter-orders injected into a
child tier equals the total rejected + residual |volume| from the parent's
clearing of the matching product" — total absolute rejected volume of the
matching products plus total absolute residual (volume minus
accepted_volume) of the accepted orders of the matching products. -/
def specCounterOrderTotal (products : List PKey) (accepted rejected : List XOrder) : Int :=
  sumAbsVol (rejected.filter (fun o => decide (productKey o ∈ products))) +
    ((accepted.filter (fun o => decide (productKey o ∈ products))).map
      (fun o => |o.volume - o.accepted_volume.getD 0|)).sum

/-- The significant-residual magnitude the code actually re-submits for one
accepted order: `|remaining|` when `abs(remaining) > 1`, else nothing. -/
def sigResidual (o : XOrder) : Int :=
  let r := o.volume - o.accepted_volume.getD 0
  if 1 < |r| then |r| else 0

end Intermediate

open BatteryMarketDemo Intermediate

/-! ## Helper lemmas -/

theorem mapOption_mem {f : XOrder → Option XOrder} :
    ∀ {l : List XOrder} {ys : List XOrder}, mapOption f l = some ys →
      ∀ y ∈ ys, ∃ x ∈ l, f x = some y := by
  intro l
  induction l with
  | nil => intro ys h y hy; simp [mapOption] at h; subst h; simp at hy
  | cons x xs ih =>
    intro ys h y hy
    simp only [mapOption] at h
    cases hfx : f x with
    | none => rw [hfx] at h; simp at h
    | some z =>
      rw [hfx] at h
      cases hrest : mapOption f xs with
      | none => rw [hrest] at h; simp at h
      | some zs =>
        rw [hrest] at h
        simp at h
        subst h
        rcases List.mem_cons.mp hy with hy | hy
        · exact ⟨x, List.mem_cons_self x xs, by rw [hfx, hy]⟩
        · obtain ⟨w, hw, hfw⟩ := ih hrest y hy
          exact ⟨w, List.mem_cons_of_mem x hw, hfw⟩

theorem findIntermediate_eq_none {roles : List SimRole} :
    findIntermediate roles = none ↔ ∀ r ∈ roles, r.isIntermediate = false := by
  induction roles with
  | nil => simp [findIntermediate]
  | cons r rs ih =>
    cases r with
    | intermediate f => simp [findIntermediate, SimRole.isIntermediate]
    | other => simp [findIntermediate, SimRole.isIntermediate, ih]

/-! ## Claim theorems -/

/-- Claim C1 is refuted on the literal fixture: the code sets each trade's
price to `max(s.price, d.price)`, so the second match (supply at 30 against
the residual demand at 40) settles at 40, and the reported clearing price is
40, not 30. -/
theorem claim_C1_counterexample :
    (clear_market fixtureBooks).clearing_price = some 40 ∧
      (clear_market fixtureBooks).clearing_price ≠ some 30 := by
  constructor <;>
    simp [clear_market, supplySide, demandSide, sortSupply, sortDemand, fixtureBooks,
      List.insertionSort, List.orderedInsert, matchLoop]

/-- Claim C1, amended: on the literal fixture the matcher matches 50 units
between the price-10 supply order and the price-40 demand order at price 40,
then 10 units between the price-30 supply order and the remaining 10 units
of the price-40 demand order at price 40 (each trade settles at
`max(s.price, d.price)`), and reports a final clearing price of 40, the
price of the last matched pair. -/
theorem claim_C1_amended :
    clear_market fixtureBooks =
      ⟨some 40,
       [⟨"s10", "d40", 50, 40⟩, ⟨"s30", "d40", 10, 40⟩],
       [⟨"s10", 10, 0⟩, ⟨"s30", 30, 40⟩],
       [⟨"d40", 40, 0⟩, ⟨"d5", 5, -40⟩]⟩ := by
  simp [clear_market, supplySide, demandSide, sortSupply, sortDemand, fixtureBooks,
    List.insertionSort, List.orderedInsert, matchLoop]

/-- Claim C2: every counter-order that `handle_market_feedback` appends to
the lower market's order list has volume equal to the negation of the
parent's `accepted_volume` for some accepted order, and carries neither the
`accepted_volume` nor the `accepted_price` annotation. -/
theorem claim_C2_counter_orders (accepted prev res : List XOrder)
    (h : handle_market_feedback accepted prev = some res) :
    ∀ o ∈ res.drop prev.length,
      o.accepted_volume = none ∧ o.accepted_price = none ∧
        ∃ p ∈ accepted, p.accepted_volume = some (-o.volume) := by
  simp only [handle_market_feedback, Option.map_eq_some'] at h
  obtain ⟨cs, hcs, hres⟩ := h
  subst hres
  rw [List.drop_left]
  intro o ho
  obtain ⟨p, hp, hpo⟩ := mapOption_mem hcs o ho
  simp only [counter_order, Option.map_eq_some'] at hpo
  obtain ⟨av, hav, ho'⟩ := hpo
  subst ho'
  exact ⟨rfl, rfl, p, hp, by rw [hav]; simp⟩

/-- Witness for C2 at a concrete input: one accepted order with volume 7
and accepted volume 3 becomes the counter-order with volume -3 and no
accepted-volume/accepted-price annotations. -/
theorem claim_C2_witness :
    handle_market_feedback [⟨0, 0, 0, 5, 7, some 3, some 5⟩] [] =
        some [⟨0, 0, 0, 5, -3, none, none⟩] ∧
      ∀ o ∈ ([⟨0, 0, 0, 5, -3, none, none⟩] :
          List XOrder).drop ([] : List XOrder).length,
        o.accepted_volume = none ∧ o.accepted_price = none ∧
          ∃ p ∈ [(⟨0, 0, 0, 5, 7, some 3, some 5⟩ : XOrder)],
            p.accepted_volume = some (-o.volume) :=
  ⟨by decide, claim_C2_counter_orders _ _ _ (by decide)⟩

/-- Claim C9 is refuted: the dependent tier's wait on its parent carries no
deadline at all; with the parent's signal absent, even after a million
round-ticks `clear_market` is still blocked, not failed with
`UpstreamTimeout`, and its pending orders are retained. -/
theorem claim_C9_counterexample :
    intermediate_clear_market false 1000000 [] = (.blocked, []) ∧
      (intermediate_clear_market false 1000000 []).1 ≠ .upstreamTimeout := by
  decide

/-- Claim C9, amended: the dependent tier's wait on its parent carries no
deadline: for every number of elapsed round-ticks without the parent's
signal, `clear_market` stays blocked on the future — it never fails with
`UpstreamTimeout` — and its pending orders are retained unchanged. -/
theorem claim_C9_amended (elapsed : Nat) (pending : List XOrder) :
    intermediate_clear_market false elapsed pending = (.blocked, pending) := rfl

/-- Claim C10: `formulate_bids` presupposes a registered
`PayAsClearIntermediateRole`: with none among the context's roles the name
`accepted` is never bound and the call fails with the unbound-local error
instead of returning an orderbook; with one registered, the error branch is
unreachable and a normal orderbook is returned. -/
theorem claim_C10_unbound_accepted (roles : List SimRole) (all_orders : List XOrder)
    (products : List PKey) :
    ((∀ r ∈ roles, r.isIntermediate = false) →
        formulate_bids roles all_orders products = .error .unboundLocalAccepted) ∧
      ((∃ r ∈ roles, r.isIntermediate = true) →
        ∃ ob, formulate_bids roles all_orders products = .ok ob) := by
  constructor
  · intro h
    have hn : findIntermediate roles = none := findIntermediate_eq_none.mpr h
    simp [formulate_bids, hn]
  · intro h
    cases hf : findIntermediate roles with
    | none =>
      obtain ⟨r, hr, hir⟩ := h
      have := findIntermediate_eq_none.mp hf r hr
      rw [hir] at this
      exact absurd this (by simp)
    | some f =>
      exact ⟨rejectedForProducts products (f all_orders products).2 ++
        (f all_orders products).1.filterMap residualCounter,
        by simp [formulate_bids, hf]⟩

/-- Witness for C10 at concrete inputs: a role list with only a
non-intermediate role makes `formulate_bids` fail with the unbound-local
error, while a role list containing an intermediate role yields an
orderbook. -/
theorem claim_C10_witness :
    formulate_bids [SimRole.other] [] [] = .error .unboundLocalAccepted ∧
      ∃ ob, formulate_bids [SimRole.other,
        SimRole.intermediate (fun _a _p => ([], []))] [] [] = .ok ob :=
  ⟨(claim_C10_unbound_accepted [SimRole.other] [] []).1
      (by intro r hr; simp at hr; subst hr; rfl),
   (claim_C10_unbound_accepted [SimRole.other,
        SimRole.intermediate (fun _a _p => ([], []))] [] []).2
      ⟨SimRole.intermediate (fun _a _p => ([], [])),
        List.mem_cons_of_mem _ (List.mem_cons_self _ _), rfl⟩⟩

theorem mem_supplySide {obs : List (List Order)} {o : Order} :
    o ∈ supplySide obs ↔ o ∈ obs.flatten ∧ 0 < o.volume := by
  unfold supplySide sortSupply
  rw [(List.perm_insertionSort _ _).mem_iff, List.mem_filter]
  simp

theorem mem_demandSide {obs : List (List Order)} {o : Order} :
    o ∈ demandSide obs ↔ o ∈ obs.flatten ∧ o.volume < 0 := by
  unfold demandSide sortDemand
  rw [(List.perm_insertionSort _ _).mem_iff, List.mem_filter]
  simp

theorem matchLoop_no_pair (ss ds : List Order)
    (h : ∀ s ∈ ss, ∀ d ∈ ds, ¬ s.price ≤ d.price) :
    matchLoop ss ds = ⟨none, [], ss, ds⟩ := by
  cases ss with
  | nil => cases ds <;> simp [matchLoop]
  | cons s ss' =>
    cases ds with
    | nil => simp [matchLoop]
    | cons d ds' =>
      have := h s (List.mem_cons_self _ _) d (List.mem_cons_self _ _)
      simp [matchLoop, this]

/-- Claim C8 is refuted in its error half: submitting a zero-volume order
does not fail with any `InvalidOrder` error — there is no submission-time
validation — the order is silently excluded by the sign filters and
`clear_market` returns the ordinary empty clearing result. -/
theorem claim_C8_counterexample :
    clear_market zeroBooks = ⟨none, [], [], []⟩ ∧
      zeroOrder ∉ supplySide zeroBooks ∧ zeroOrder ∉ demandSide zeroBooks := by
  refine ⟨?_, ?_, ?_⟩ <;>
    simp [clear_market, supplySide, demandSide, sortSupply, sortDemand, zeroBooks,
      zeroOrder, List.insertionSort, matchLoop]

/-- Claim C8, amended: every order with zero volume is excluded by the sign
filters from both the supply and the demand list and so never enters the
matching walk; it is silently dropped rather than rejected with an
`InvalidOrder` error. -/
theorem claim_C8_amended (obs : List (List Order)) (o : Order)
    (h1 : o ∈ obs.flatten) (h2 : o.volume = 0) :
    o ∉ supplySide obs ∧ o ∉ demandSide obs := by
  constructor
  · intro hmem; have := (mem_supplySide.mp hmem).2; omega
  · intro hmem; have := (mem_demandSide.mp hmem).2; omega

/-- Witness for the amended C8 at a concrete input: the zero-volume order
is in the submitted books yet in neither side of the matching walk. -/
theorem claim_C8_witness :
    zeroOrder ∈ zeroBooks.flatten ∧ zeroOrder.volume = 0 ∧
      (zeroOrder ∉ supplySide zeroBooks ∧ zeroOrder ∉ demandSide zeroBooks) :=
  ⟨by decide, by decide, claim_C8_amended zeroBooks zeroOrder (by decide) (by decide)⟩

/-- Claim C6: when no supply/demand pair is price-compatible (in particular
when either side is empty), `clear_market` reports an absent clearing price
and an empty match list, leaves every order untouched (all rejected), and a
second run of the matching walk on the resulting books returns the
identical empty result. -/
theorem claim_C6_no_clear (obs : List (List Order))
    (h : ∀ s ∈ obs.flatten, 0 < s.volume →
      ∀ d ∈ obs.flatten, d.volume < 0 → d.price < s.price) :
    clear_market obs = ⟨none, [], supplySide obs, demandSide obs⟩ ∧
      matchLoop (clear_market obs).finalSupply (clear_market obs).finalDemand =
        clear_market obs := by
  have main : clear_market obs = ⟨none, [], supplySide obs, demandSide obs⟩ := by
    unfold clear_market
    apply matchLoop_no_pair
    intro s hs d hd
    obtain ⟨hsf, hsv⟩ := mem_supplySide.mp hs
    obtain ⟨hdf, hdv⟩ := mem_demandSide.mp hd
    exact not_le.mpr (h s hsf hsv d hdf hdv)
  refine ⟨main, ?_⟩
  rw [main]
  exact main

/-- Witness for C6 at a concrete input: one supply order asking 50 against
one demand order bidding 20 has no feasible intersection. -/
theorem claim_C6_witness :
    clear_market noClearBooks = ⟨none, [], supplySide noClearBooks, demandSide noClearBooks⟩ ∧
      matchLoop (clear_market noClearBooks).finalSupply
        (clear_market noClearBooks).finalDemand = clear_market noClearBooks :=
  claim_C6_no_clear noClearBooks (by decide)

theorem filter_price_orderedInsert (r : Order → Order → Prop) [DecidableRel r]
    (hr : ∀ a b : Order, ¬ r a b → a.price ≠ b.price) (pr : Int) (a : Order) :
    ∀ l : List Order,
      (List.orderedInsert r a l).filter (fun o => decide (o.price = pr)) =
        if a.price = pr then a :: l.filter (fun o => decide (o.price = pr))
        else l.filter (fun o => decide (o.price = pr)) := by
  intro l
  induction l with
  | nil =>
    by_cases hap : a.price = pr <;> simp [List.orderedInsert, List.filter_cons, hap]
  | cons b l ih =>
    by_cases hab : r a b
    · simp only [List.orderedInsert, if_pos hab, List.filter_cons]
      by_cases hap : a.price = pr <;> simp [hap]
    · simp only [List.orderedInsert, if_neg hab, List.filter_cons, ih]
      by_cases hap : a.price = pr
      · have hbp : ¬ b.price = pr := fun hb => hr a b hab (hap.trans hb.symm)
        simp [hap, hbp]
      · by_cases hbp : b.price = pr <;> simp [hap, hbp]

theorem filter_price_insertionSort (r : Order → Order → Prop) [DecidableRel r]
    (hr : ∀ a b : Order, ¬ r a b → a.price ≠ b.price) (pr : Int) :
    ∀ l : List Order,
      (l.insertionSort r).filter (fun o => decide (o.price = pr)) =
        l.filter (fun o => decide (o.price = pr)) := by
  intro l
  induction l with
  | nil => rfl
  | cons a l ih =>
    rw [List.insertionSort, filter_price_orderedInsert r hr pr, ih, List.filter_cons]
    by_cases hap : a.price = pr <;> simp [hap]

/-- Claim C7: `clear_market` is deterministic — equal submitted order sets
give equal clearing results — and each price sort is stable: at every price
level, the sorted supply (demand) side lists the orders of that price in
submission order, i.e. filtering either sorted side at any price gives
exactly the submission-ordered filter of the pooled orders. -/
theorem claim_C7_determinism_stability (obs1 obs2 : List (List Order)) (pr : Int)
    (h : obs1 = obs2) :
    clear_market obs1 = clear_market obs2 ∧
      (supplySide obs1).filter (fun o => decide (o.price = pr)) =
        ((obs1.flatten).filter (fun o => decide (0 < o.volume))).filter
          (fun o => decide (o.price = pr)) ∧
      (demandSide obs1).filter (fun o => decide (o.price = pr)) =
        ((obs1.flatten).filter (fun o => decide (o.volume < 0))).filter
          (fun o => decide (o.price = pr)) := by
  refine ⟨by rw [h], ?_, ?_⟩
  · unfold supplySide sortSupply
    exact filter_price_insertionSort _ (fun a b hab heq => hab (le_of_eq heq)) pr _
  · unfold demandSide sortDemand
    exact filter_price_insertionSort _ (fun a b hab heq => hab (le_of_eq heq.symm)) pr _

/-- Witness for C7 at a concrete input: the fixture books at price level 10. -/
theorem claim_C7_witness :
    clear_market fixtureBooks = clear_market fixtureBooks ∧
      (supplySide fixtureBooks).filter (fun o => decide (o.price = 10)) =
        ((fixtureBooks.flatten).filter (fun o => decide (0 < o.volume))).filter
          (fun o => decide (o.price = 10)) ∧
      (demandSide fixtureBooks).filter (fun o => decide (o.price = 10)) =
        ((fixtureBooks.flatten).filter (fun o => decide (o.volume < 0))).filter
          (fun o => decide (o.price = 10)) :=
  claim_C7_determinism_stability fixtureBooks fixtureBooks 10 rfl

theorem matchLoop_lengths (ss ds : List Order) :
    (matchLoop ss ds).finalSupply.length = ss.length ∧
      (matchLoop ss ds).finalDemand.length = ds.length := by
  induction ss, ds using matchLoop.induct with
  | case1 ds => simp [matchLoop]
  | case2 s ss => simp [matchLoop]
  | case3 s ss d ds hp hs hd ih =>
    simp only [matchLoop, if_pos hp, if_pos hs, if_pos hd]
    simp at ih ⊢; omega
  | case4 s ss d ds hp hs hd ih =>
    simp only [matchLoop, if_pos hp, if_pos hs, if_neg hd]
    simp at ih ⊢; omega
  | case5 s ss d ds hp hs ih =>
    simp only [matchLoop, if_pos hp, if_neg hs]
    simp at ih ⊢; omega
  | case6 s ss d ds hp =>
    simp only [matchLoop, if_neg hp]; simp

theorem matchLoop_vol_conserve (ss ds : List Order) :
    sumVol (matchLoop ss ds).finalSupply + sumVol (matchLoop ss ds).finalDemand =
      sumVol ss + sumVol ds := by
  induction ss, ds using matchLoop.induct with
  | case1 ds => simp [matchLoop]
  | case2 s ss => simp [matchLoop]
  | case3 s ss d ds hp hs hd ih =>
    simp only [matchLoop, if_pos hp, if_pos hs, if_pos hd]
    simp [sumVol] at ih ⊢; omega
  | case4 s ss d ds hp hs hd ih =>
    simp only [matchLoop, if_pos hp, if_pos hs, if_neg hd]
    simp [sumVol] at ih ⊢; omega
  | case5 s ss d ds hp hs ih =>
    simp only [matchLoop, if_pos hp, if_neg hs]
    simp [sumVol] at ih ⊢; omega
  | case6 s ss d ds hp =>
    simp only [matchLoop, if_neg hp]

theorem sum_zipWith_vol_sub :
    ∀ l1 l2 : List Order, l1.length = l2.length →
      (List.zipWith (fun o f => o.volume - f.volume) l1 l2).sum =
        sumVol l1 - sumVol l2 := by
  intro l1
  induction l1 with
  | nil =>
    intro l2 h
    cases l2 with
    | nil => simp [sumVol]
    | cons b l2' => simp at h
  | cons a l ih =>
    intro l2 h
    cases l2 with
    | nil => simp at h
    | cons b l2' =>
      simp only [List.length_cons] at h
      have := ih l2' (by omega)
      simp [sumVol] at this ⊢
      omega

/-- Claim C4: for every run of `clear_market`, the total accepted volume of
the supply side (submitted minus final volume, per order) equals the
negation of the total accepted volume of the demand side — matched supply
exactly balances matched demand. -/
theorem claim_C4_volume_balance (obs : List (List Order)) :
    (acceptedVolumes (supplySide obs) (clear_market obs).finalSupply).sum =
      -(acceptedVolumes (demandSide obs) (clear_market obs).finalDemand).sum := by
  have hl := matchLoop_lengths (supplySide obs) (demandSide obs)
  have hc := matchLoop_vol_conserve (supplySide obs) (demandSide obs)
  unfold clear_market acceptedVolumes
  rw [sum_zipWith_vol_sub _ _ hl.1.symm, sum_zipWith_vol_sub _ _ hl.2.symm]
  omega

theorem mem_zip_self {α : Type} : ∀ (l : List α) (p : α × α), p ∈ l.zip l → p.2 = p.1 := by
  intro l
  induction l with
  | nil => intro p hp; simp at hp
  | cons a t ih =>
    intro p hp
    rw [List.zip_cons_cons, List.mem_cons] at hp
    rcases hp with h | h
    · rw [h]
    · exact ih p h

theorem matchLoop_price_bounds : ∀ ss ds : List Order,
    (∀ o ∈ ss, 0 < o.volume) → (∀ o ∈ ds, o.volume < 0) →
    (∀ p ∈ ss.zip (matchLoop ss ds).finalSupply,
       p.2.price = p.1.price ∧ p.2.volume ≤ p.1.volume) ∧
    (∀ p ∈ ds.zip (matchLoop ss ds).finalDemand,
       p.2.price = p.1.price ∧ p.1.volume ≤ p.2.volume) ∧
    (∀ pr, (matchLoop ss ds).clearing_price = some pr →
       (∃ p ∈ ss.zip (matchLoop ss ds).finalSupply,
          p.2.volume < p.1.volume ∧ p.1.price ≤ pr) ∧
       (∃ p ∈ ds.zip (matchLoop ss ds).finalDemand,
          p.1.volume < p.2.volume ∧ pr ≤ p.1.price)) := by
  intro ss ds
  induction ss, ds using matchLoop.induct with
  | case1 ds =>
    intro _ _
    refine ⟨by simp [matchLoop], ?_, by simp [matchLoop]⟩
    intro p hp
    rw [mem_zip_self ds p (by simpa [matchLoop] using hp)]
    exact ⟨rfl, le_refl _⟩
  | case2 s ss =>
    intro _ _
    refine ⟨?_, by simp [matchLoop], by simp [matchLoop]⟩
    intro p hp
    rw [mem_zip_self (s :: ss) p (by simpa [matchLoop] using hp)]
    exact ⟨rfl, le_refl _⟩
  | case6 s ss d ds hp =>
    intro _ _
    refine ⟨?_, ?_, by simp [matchLoop, hp]⟩
    · intro p hmem
      rw [mem_zip_self (s :: ss) p (by simpa [matchLoop, hp] using hmem)]
      exact ⟨rfl, le_refl _⟩
    · intro p hmem
      rw [mem_zip_self (d :: ds) p (by simpa [matchLoop, hp] using hmem)]
      exact ⟨rfl, le_refl _⟩
  | case3 s ss d ds hp hs3 hd3 ih =>
    intro hvs hvd
    have hsv : 0 < s.volume := hvs s (List.mem_cons_self _ _)
    have hdv : d.volume < 0 := hvd d (List.mem_cons_self _ _)
    have htr : 0 < min s.volume (-d.volume) := by omega
    obtain ⟨A, B, C⟩ := ih (fun o ho => hvs o (List.mem_cons_of_mem _ ho))
      (fun o ho => hvd o (List.mem_cons_of_mem _ ho))
    have heq : matchLoop (s :: ss) (d :: ds) =
        ⟨some ((matchLoop ss ds).clearing_price.getD (max s.price d.price)),
         ⟨s.node, d.node, min s.volume (-d.volume), max s.price d.price⟩ ::
           (matchLoop ss ds).matched_orders,
         { s with volume := s.volume - min s.volume (-d.volume) } ::
           (matchLoop ss ds).finalSupply,
         { d with volume := d.volume + min s.volume (-d.volume) } ::
           (matchLoop ss ds).finalDemand⟩ := by
      rw [matchLoop]; rw [if_pos hp, if_pos hs3, if_pos hd3]
    rw [heq]
    dsimp only
    refine ⟨?_, ?_, ?_⟩
    · intro p hmem
      rw [List.zip_cons_cons, List.mem_cons] at hmem
      rcases hmem with h | h
      · rw [h]; exact ⟨rfl, by dsimp only; omega⟩
      · exact A p h
    · intro p hmem
      rw [List.zip_cons_cons, List.mem_cons] at hmem
      rcases hmem with h | h
      · rw [h]; exact ⟨rfl, by dsimp only; omega⟩
      · exact B p h
    · intro pr hpr
      cases hcp : (matchLoop ss ds).clearing_price with
      | some q =>
        rw [hcp] at hpr
        simp only [Option.getD_some, Option.some_inj] at hpr
        subst hpr
        obtain ⟨⟨psup, hpsup, h1, h2⟩, ⟨pdem, hpdem, h3, h4⟩⟩ := C q hcp
        constructor
        · exact ⟨psup, by rw [List.zip_cons_cons]; exact List.mem_cons_of_mem _ hpsup, h1, h2⟩
        · exact ⟨pdem, by rw [List.zip_cons_cons]; exact List.mem_cons_of_mem _ hpdem, h3, h4⟩
      | none =>
        rw [hcp] at hpr
        simp only [Option.getD_none, Option.some_inj] at hpr
        subst hpr
        constructor
        · refine ⟨(s, { s with volume := s.volume - min s.volume (-d.volume) }),
            by rw [List.zip_cons_cons]; exact List.mem_cons_self _ _, ?_, le_max_left _ _⟩
          dsimp only; omega
        · refine ⟨(d, { d with volume := d.volume + min s.volume (-d.volume) }),
            by rw [List.zip_cons_cons]; exact List.mem_cons_self _ _, ?_, ?_⟩
          · dsimp only; omega
          · exact le_of_eq (max_eq_right hp)
  | case4 s ss d ds hp hs4 hd4 ih =>
    intro hvs hvd
    have hsv : 0 < s.volume := hvs s (List.mem_cons_self _ _)
    have hdv : d.volume < 0 := hvd d (List.mem_cons_self _ _)
    have htr : 0 < min s.volume (-d.volume) := by omega
    have hd'v : ({ d with volume := d.volume + min s.volume (-d.volume) } : Order).volume < 0 := by
      dsimp only; omega
    obtain ⟨A, B, C⟩ := ih (fun o ho => hvs o (List.mem_cons_of_mem _ ho))
      (by
        intro o ho
        rw [List.mem_cons] at ho
        rcases ho with h | h
        · rw [h]; exact hd'v
        · exact hvd o (List.mem_cons_of_mem _ h))
    have heq : matchLoop (s :: ss) (d :: ds) =
        ⟨some ((matchLoop ss ({ d with volume := d.volume + min s.volume (-d.volume) } ::
            ds)).clearing_price.getD (max s.price d.price)),
         ⟨s.node, d.node, min s.volume (-d.volume), max s.price d.price⟩ ::
           (matchLoop ss ({ d with volume := d.volume + min s.volume (-d.volume) } ::
             ds)).matched_orders,
         { s with volume := s.volume - min s.volume (-d.volume) } ::
           (matchLoop ss ({ d with volume := d.volume + min s.volume (-d.volume) } ::
             ds)).finalSupply,
         (matchLoop ss ({ d with volume := d.volume + min s.volume (-d.volume) } ::
           ds)).finalDemand⟩ := by
      rw [matchLoop]; rw [if_pos hp, if_pos hs4, if_neg hd4]
    rw [heq]
    dsimp only
    obtain ⟨g0, gs, hg⟩ : ∃ g0 gs,
        (matchLoop ss ({ d with volume := d.volume + min s.volume (-d.volume) } ::
          ds)).finalDemand = g0 :: gs := by
      have := (matchLoop_lengths ss ({ d with volume := d.volume + min s.volume (-d.volume) } :: ds)).2
      cases hfd : (matchLoop ss ({ d with volume := d.volume + min s.volume (-d.volume) } ::
          ds)).finalDemand with
      | nil => rw [hfd] at this; simp at this
      | cons a b => exact ⟨a, b, rfl⟩
    have hB0 := B (({ d with volume := d.volume + min s.volume (-d.volume) } : Order), g0)
      (by rw [hg, List.zip_cons_cons]; exact List.mem_cons_self _ _)
    refine ⟨?_, ?_, ?_⟩
    · intro p hmem
      rw [List.zip_cons_cons, List.mem_cons] at hmem
      rcases hmem with h | h
      · rw [h]; exact ⟨rfl, by dsimp only; omega⟩
      · exact A p h
    · intro p hmem
      rw [hg, List.zip_cons_cons, List.mem_cons] at hmem
      rcases hmem with h | h
      · rw [h]
        refine ⟨hB0.1, ?_⟩
        have := hB0.2
        dsimp only at this ⊢
        omega
      · obtain ⟨h5, h6⟩ := B p (by rw [hg, List.zip_cons_cons]; exact List.mem_cons_of_mem _ h)
        exact ⟨h5, h6⟩
    · intro pr hpr
      cases hcp : (matchLoop ss ({ d with volume := d.volume + min s.volume (-d.volume) } ::
          ds)).clearing_price with
      | some q =>
        rw [hcp] at hpr
        simp only [Option.getD_some, Option.some_inj] at hpr
        subst hpr
        obtain ⟨⟨psup, hpsup, h1, h2⟩, ⟨pdem, hpdem, h3, h4⟩⟩ := C q hcp
        constructor
        · exact ⟨psup, by rw [List.zip_cons_cons]; exact List.mem_cons_of_mem _ hpsup, h1, h2⟩
        · rw [hg, List.zip_cons_cons, List.mem_cons] at hpdem
          rcases hpdem with h | h
          · refine ⟨(d, g0), by rw [hg, List.zip_cons_cons]; exact List.mem_cons_self _ _, ?_, ?_⟩
            · have h3' := h3
              rw [h] at h3'
              dsimp only at h3'
              dsimp only
              omega
            · have h4' := h4
              rw [h] at h4'
              dsimp only at h4'
              exact h4'
          · exact ⟨pdem, by rw [hg, List.zip_cons_cons]; exact List.mem_cons_of_mem _ h, h3, h4⟩
      | none =>
        rw [hcp] at hpr
        simp only [Option.getD_none, Option.some_inj] at hpr
        subst hpr
        constructor
        · refine ⟨(s, { s with volume := s.volume - min s.volume (-d.volume) }),
            by rw [List.zip_cons_cons]; exact List.mem_cons_self _ _, ?_, le_max_left _ _⟩
          dsimp only; omega
        · refine ⟨(d, g0), by rw [hg, List.zip_cons_cons]; exact List.mem_cons_self _ _, ?_, ?_⟩
          · have := hB0.2
            dsimp only at this ⊢
            omega
          · exact le_of_eq (max_eq_right hp)
  | case5 s ss d ds hp hs5 ih =>
    intro hvs hvd
    have hsv : 0 < s.volume := hvs s (List.mem_cons_self _ _)
    have hdv : d.volume < 0 := hvd d (List.mem_cons_self _ _)
    have htr : 0 < min s.volume (-d.volume) := by omega
    have hs'v : (0 : Int) < ({ s with volume := s.volume - min s.volume (-d.volume) } : Order).volume := by
      dsimp only; omega
    obtain ⟨A, B, C⟩ := ih
      (by
        intro o ho
        rw [List.mem_cons] at ho
        rcases ho with h | h
        · rw [h]; exact hs'v
        · exact hvs o (List.mem_cons_of_mem _ h))
      (fun o ho => hvd o (List.mem_cons_of_mem _ ho))
    have heq : matchLoop (s :: ss) (d :: ds) =
        ⟨some ((matchLoop ({ s with volume := s.volume - min s.volume (-d.volume) } :: ss)
            ds).clearing_price.getD (max s.price d.price)),
         ⟨s.node, d.node, min s.volume (-d.volume), max s.price d.price⟩ ::
           (matchLoop ({ s with volume := s.volume - min s.volume (-d.volume) } :: ss)
             ds).matched_orders,
         (matchLoop ({ s with volume := s.volume - min s.volume (-d.volume) } :: ss)
           ds).finalSupply,
         { d with volume := d.volume + min s.volume (-d.volume) } ::
           (matchLoop ({ s with volume := s.volume - min s.volume (-d.volume) } :: ss)
             ds).finalDemand⟩ := by
      rw [matchLoop]; rw [if_pos hp, if_neg hs5]
    rw [heq]
    dsimp only
    obtain ⟨f0, fs, hf⟩ : ∃ f0 fs,
        (matchLoop ({ s with volume := s.volume - min s.volume (-d.volume) } :: ss)
          ds).finalSupply = f0 :: fs := by
      have := (matchLoop_lengths ({ s with volume := s.volume - min s.volume (-d.volume) } :: ss) ds).1
      cases hfs : (matchLoop ({ s with volume := s.volume - min s.volume (-d.volume) } :: ss)
          ds).finalSupply with
      | nil => rw [hfs] at this; simp at this
      | cons a b => exact ⟨a, b, rfl⟩
    have hA0 := A (({ s with volume := s.volume - min s.volume (-d.volume) } : Order), f0)
      (by rw [hf, List.zip_cons_cons]; exact List.mem_cons_self _ _)
    refine ⟨?_, ?_, ?_⟩
    · intro p hmem
      rw [hf, List.zip_cons_cons, List.mem_cons] at hmem
      rcases hmem with h | h
      · rw [h]
        refine ⟨hA0.1, ?_⟩
        have := hA0.2
        dsimp only at this ⊢
        omega
      · exact A p (by rw [hf, List.zip_cons_cons]; exact List.mem_cons_of_mem _ h)
    · intro p hmem
      rw [List.zip_cons_cons, List.mem_cons] at hmem
      rcases hmem with h | h
      · rw [h]; exact ⟨rfl, by dsimp only; omega⟩
      · exact B p h
    · intro pr hpr
      cases hcp : (matchLoop ({ s with volume := s.volume - min s.volume (-d.volume) } :: ss)
          ds).clearing_price with
      | some q =>
        rw [hcp] at hpr
        simp only [Option.getD_some, Option.some_inj] at hpr
        subst hpr
        obtain ⟨⟨psup, hpsup, h1, h2⟩, ⟨pdem, hpdem, h3, h4⟩⟩ := C q hcp
        constructor
        · rw [hf, List.zip_cons_cons, List.mem_cons] at hpsup
          rcases hpsup with h | h
          · refine ⟨(s, f0), by rw [hf, List.zip_cons_cons]; exact List.mem_cons_self _ _, ?_, ?_⟩
            · have h1' := h1
              rw [h] at h1'
              dsimp only at h1'
              dsimp only
              omega
            · have h2' := h2
              rw [h] at h2'
              dsimp only at h2'
              exact h2'
          · exact ⟨psup, by rw [hf, List.zip_cons_cons]; exact List.mem_cons_of_mem _ h, h1, h2⟩
        · exact ⟨pdem, by rw [List.zip_cons_cons]; exact List.mem_cons_of_mem _ hpdem, h3, h4⟩
      | none =>
        rw [hcp] at hpr
        simp only [Option.getD_none, Option.some_inj] at hpr
        subst hpr
        constructor
        · refine ⟨(s, f0), by rw [hf, List.zip_cons_cons]; exact List.mem_cons_self _ _, ?_, le_max_left _ _⟩
          have := hA0.2
          dsimp only at this ⊢
          omega
        · refine ⟨(d, { d with volume := d.volume + min s.volume (-d.volume) }),
            by rw [List.zip_cons_cons]; exact List.mem_cons_self _ _, ?_, ?_⟩
          · dsimp only; omega
          · exact le_of_eq (max_eq_right hp)

theorem minPrice_le_of_mem : ∀ {l : List Int} {x : Int}, x ∈ l →
    ∃ m, minPrice l = some m ∧ m ≤ x := by
  intro l
  induction l with
  | nil => intro x hx; simp at hx
  | cons y ys ih =>
    intro x hx
    rw [List.mem_cons] at hx
    cases hys : minPrice ys with
    | none =>
      rcases hx with h | h
      · exact ⟨y, by simp [minPrice, hys], le_of_eq h.symm⟩
      · obtain ⟨m, hm, _⟩ := ih h
        rw [hys] at hm
        cases hm
    | some m =>
      rcases hx with h | h
      · exact ⟨min y m, by simp [minPrice, hys], by rw [h]; exact min_le_left _ _⟩
      · obtain ⟨m2, hm2, hle⟩ := ih h
        rw [hys] at hm2
        obtain rfl : m = m2 := by injection hm2
        exact ⟨min y m, by simp [minPrice, hys], le_trans (min_le_right _ _) hle⟩

theorem le_maxPrice_of_mem : ∀ {l : List Int} {x : Int}, x ∈ l →
    ∃ m, maxPrice l = some m ∧ x ≤ m := by
  intro l
  induction l with
  | nil => intro x hx; simp at hx
  | cons y ys ih =>
    intro x hx
    rw [List.mem_cons] at hx
    cases hys : maxPrice ys with
    | none =>
      rcases hx with h | h
      · exact ⟨y, by simp [maxPrice, hys], le_of_eq h⟩
      · obtain ⟨m, hm, _⟩ := ih h
        rw [hys] at hm
        cases hm
    | some m =>
      rcases hx with h | h
      · exact ⟨max y m, by simp [maxPrice, hys], by rw [h]; exact le_max_left _ _⟩
      · obtain ⟨m2, hm2, hle⟩ := ih h
        rw [hys] at hm2
        obtain rfl : m = m2 := by injection hm2
        exact ⟨max y m, by simp [maxPrice, hys], le_trans hle (le_max_right _ _)⟩

/-- Claim C5: whenever `clear_market` reports a clearing price, that price
lies between the lowest price among supply orders with non-zero matched
volume and the highest price among demand orders with non-zero matched
volume, inclusive. -/
theorem claim_C5_price_bounds (obs : List (List Order)) (pr : Int)
    (h : (clear_market obs).clearing_price = some pr) :
    ∃ lo hi, minPrice (acceptedSupplyPrices obs) = some lo ∧
      maxPrice (acceptedDemandPrices obs) = some hi ∧ lo ≤ pr ∧ pr ≤ hi := by
  obtain ⟨A, B, C⟩ := matchLoop_price_bounds (supplySide obs) (demandSide obs)
    (fun o ho => (mem_supplySide.mp ho).2) (fun o ho => (mem_demandSide.mp ho).2)
  obtain ⟨⟨ps, hps, h1, h2⟩, ⟨pd, hpd, h3, h4⟩⟩ := C pr h
  have hmemS : ps.1.price ∈ acceptedSupplyPrices obs := by
    unfold acceptedSupplyPrices
    refine List.mem_filterMap.mpr ⟨ps, hps, ?_⟩
    rw [if_neg (by omega : ¬ ps.2.volume = ps.1.volume)]
  have hmemD : pd.1.price ∈ acceptedDemandPrices obs := by
    unfold acceptedDemandPrices
    refine List.mem_filterMap.mpr ⟨pd, hpd, ?_⟩
    rw [if_neg (by omega : ¬ pd.2.volume = pd.1.volume)]
  obtain ⟨lo, hlo, hlo2⟩ := minPrice_le_of_mem hmemS
  obtain ⟨hi, hhi, hhi2⟩ := le_maxPrice_of_mem hmemD
  exact ⟨lo, hi, hlo, hhi, le_trans hlo2 h2, le_trans h4 hhi2⟩

/-- Witness for C5 at the fixture: the clearing price 40 lies between the
lowest accepted supply price (10) and the highest accepted demand
price (40). -/
theorem claim_C5_witness :
    (clear_market fixtureBooks).clearing_price = some 40 ∧
      ∃ lo hi, minPrice (acceptedSupplyPrices fixtureBooks) = some lo ∧
        maxPrice (acceptedDemandPrices fixtureBooks) = some hi ∧
        lo ≤ 40 ∧ (40 : Int) ≤ hi :=
  ⟨by simp [clear_market, supplySide, demandSide, sortSupply, sortDemand, fixtureBooks,
      List.insertionSort, List.orderedInsert, matchLoop],
   claim_C5_price_bounds fixtureBooks 40
    (by simp [clear_market, supplySide, demandSide, sortSupply, sortDemand, fixtureBooks,
      List.insertionSort, List.orderedInsert, matchLoop])⟩

theorem sumAbsVol_append (a b : List XOrder) :
    sumAbsVol (a ++ b) = sumAbsVol a + sumAbsVol b := by
  simp [sumAbsVol]

theorem rejectedForProducts_eq_filter (ps : List PKey) :
    ∀ l : List XOrder, rejectedForProducts ps l =
      l.filter (fun o => decide (productKey o ∈ ps)) := by
  intro l
  induction l using groupRuns.induct with
  | case1 => simp [rejectedForProducts, groupRuns]
  | case2 o rest ih =>
    have ht : ∀ x ∈ rest.takeWhile (fun x => decide (productKey x = productKey o)),
        productKey x = productKey o :=
      by
      intro x hx
      have h := List.mem_takeWhile_imp hx
      exact of_decide_eq_true h
    have hrest : rest.takeWhile (fun x => decide (productKey x = productKey o)) ++
        rest.dropWhile (fun x => decide (productKey x = productKey o)) = rest :=
      List.takeWhile_append_dropWhile _ _
    simp only [rejectedForProducts] at ih ⊢
    rw [groupRuns]
    rw [List.filter_cons]
    by_cases hk : productKey o ∈ ps
    · rw [if_pos (by simpa using hk)]
      rw [List.map_cons, List.flatten_cons, ih]
      conv_rhs => rw [← hrest]
      rw [← List.cons_append, List.filter_append]
      have htf : (o :: rest.takeWhile (fun x => decide (productKey x = productKey o))).filter
          (fun o => decide (productKey o ∈ ps)) =
          o :: rest.takeWhile (fun x => decide (productKey x = productKey o)) := by
        rw [List.filter_eq_self]
        intro a ha
        rw [List.mem_cons] at ha
        rcases ha with h | h
        · subst h; simpa using hk
        · rw [decide_eq_true_eq, ht a h]; exact hk
      rw [htf, List.cons_append]
    · rw [if_neg (by simpa using hk)]
      rw [ih]
      conv_rhs => rw [← hrest]
      rw [← List.cons_append, List.filter_append]
      have htf : (o :: rest.takeWhile (fun x => decide (productKey x = productKey o))).filter
          (fun o => decide (productKey o ∈ ps)) = [] := by
        rw [List.filter_eq_nil_iff]
        intro a ha
        rw [List.mem_cons] at ha
        rcases ha with h | h
        · subst h; simpa using hk
        · rw [decide_eq_true_eq, ht a h]; exact hk
      rw [htf, List.nil_append]

theorem sumAbsVol_filterMap_residual : ∀ acc : List XOrder,
    sumAbsVol (acc.filterMap residualCounter) = (acc.map sigResidual).sum := by
  intro acc
  induction acc with
  | nil => simp [sumAbsVol]
  | cons o t ih =>
    by_cases hr : 1 < |o.volume - o.accepted_volume.getD 0|
    · simp only [List.filterMap_cons, residualCounter, if_pos hr]
      simp only [List.map_cons, List.sum_cons, sigResidual, if_pos hr]
      simp [sumAbsVol] at ih ⊢
      omega
    · simp only [List.filterMap_cons, residualCounter, if_neg hr]
      simp only [List.map_cons, List.sum_cons, sigResidual, if_neg hr]
      rw [ih]
      omega

/-- Claim C3 is refuted at a concrete parent clearing result: with requested
product `(0,0,0)` and accepted orders (volume 2, accepted 1, product
`(0,0,0)`) and (volume 10, accepted 2, product `(9,9,9)`), the code submits
only the residual-8 counter-order of the foreign product — the residual 1 of
the matching product is below the hardcoded `abs(remaining) > 1` threshold
and is dropped, while the residual loop is not restricted to the matching
product — so the counter-order total is 8 while the spec's
rejected-plus-residual total for the matching product is 1. -/
theorem claim_C3_counterexample :
    formulate_bids [.intermediate (fun _a _p =>
        ([⟨0, 0, 0, 5, 2, some 1, some 7⟩, ⟨9, 9, 9, 5, 10, some 2, some 7⟩], []))]
        [] [(0, 0, 0)] = .ok [⟨9, 9, 9, 5, 8, some 2, some 7⟩] ∧
      sumAbsVol [⟨9, 9, 9, 5, 8, some 2, some 7⟩] = 8 ∧
      specCounterOrderTotal [(0, 0, 0)]
        [⟨0, 0, 0, 5, 2, some 1, some 7⟩, ⟨9, 9, 9, 5, 10, some 2, some 7⟩] [] = 1 ∧
      (8 : Int) ≠ 1 := by
  refine ⟨?_, by decide, by decide, by decide⟩
  simp [formulate_bids, findIntermediate, rejectedForProducts, groupRuns,
    residualCounter, productKey]

/-- Claim C3, amended: for every parent clearing result, the total
`|volume|` of the counter-orders `formulate_bids` submits upward equals the
total `|volume|` of the rejected orders of the requested products plus the
total `|volume - accepted_volume|` over accepted orders of every product
whose residual magnitude exceeds the hardcoded threshold 1. -/
theorem claim_C3_amended (f : List XOrder → List PKey → List XOrder × List XOrder)
    (all_orders : List XOrder) (products : List PKey) :
    ∃ ob, formulate_bids [.intermediate f] all_orders products = .ok ob ∧
      sumAbsVol ob =
        sumAbsVol (((f all_orders products).2).filter
          (fun o => decide (productKey o ∈ products))) +
        (((f all_orders products).1).map sigResidual).sum := by
  refine ⟨rejectedForProducts products (f all_orders products).2 ++
    ((f all_orders products).1).filterMap residualCounter, rfl, ?_⟩
  rw [sumAbsVol_append, rejectedForProducts_eq_filter, sumAbsVol_filterMap_residual]
